

import Mathlib

/-!
Verification of the XPM encoder in `cairo_xpm.c`.

The development is a shallow embedding of the encoder.  Pixels are 32-bit
ARGB values represented as `Nat`; an image exposes a width, a height and a
per-pixel accessor, mirroring the Cairo image-surface interface used by the
code.  All stateful loops of `cairo_image_surface_write_to_xpm_mem` are
rendered as folds or list constructions, and the emitted XPM text is a
`List Char` built from exactly the pieces the `snprintf` calls produce.
-/

/-- Constant from cairo_xpm.c: max number of colors = 3 * 8 bit
(`#define MAX_COL 0x1000000`).  Key `MAX_COL` of the color table is the
slot reserved for the transparent sentinel. -/
def MAX_COL : Nat := 0x1000000

/-- Constant from cairo_xpm.c: transparency threshold 50%
(`#define TRANS_THRESH 0x80`). -/
def TRANS_THRESH : Nat := 0x80

/-- Pixel-to-Color rule of the palette-building pass, cairo_xpm.c lines
173-177: `if (((col >> 24) & 0xff) < TRANS_THRESH) col = MAX_COL; else
col &= 0x00ffffff;`. -/
def pixColorPalette (p : Nat) : Nat :=
  if (p >>> 24) &&& 0xff < TRANS_THRESH then MAX_COL else p &&& 0x00ffffff

/-- Pixel-to-Color rule of the row-emission pass, cairo_xpm.c lines
226-229: `if (((col >> 24) & 0xff) < TRANS_THRESH) col = MAX_COL; else
col &= 0xffffff;`. -/
def pixColorRow (p : Nat) : Nat :=
  if (p >>> 24) &&& 0xff < TRANS_THRESH then MAX_COL else p &&& 0xffffff

/-- The bit-counting loop of `num_chars_per_pixel`, cairo_xpm.c line 53:
`for (bpc = 0, n = ncols; n; n >>= 1, bpc++);`. -/
def bpcLoop (n : Nat) : Nat :=
  if h : n = 0 then 0 else bpcLoop (n >>> 1) + 1
decreasing_by
  simp only [Nat.shiftRight_eq_div_pow, pow_one]
  exact Nat.div_lt_self (Nat.pos_of_ne_zero h) one_lt_two

/-- `num_chars_per_pixel` of cairo_xpm.c lines 49-60: the number of
base64 characters per pixel, derived from the number of colors. -/
def num_chars_per_pixel (ncols : Nat) : Nat :=
  let bpc := bpcLoop ncols
  let n := bpc / 6
  if n * 6 < bpc then n + 1 else n

/-- An image as the encoder sees it through the Cairo accessors: a width,
a height and a per-pixel 32-bit ARGB accessor (`pix x y`), mirroring
`cairo_image_surface_get_width/height` and
`cairo_image_surface_get_argb24_pixel`. -/
structure Img where
  w : Nat
  h : Nat
  pix : Nat → Nat → Nat

/-- The pixels of an image in the row-major traversal order of the nested
loops at cairo_xpm.c lines 170-171 and 218-223: y outer (top to bottom),
x inner (left to right). -/
def imgPixels (img : Img) : List Nat :=
  ((List.range img.h).map (fun y => (List.range img.w).map (fun x => img.pix x y))).flatten

/-- State of the palette-building loop: the direct-addressed table
`colors` (cairo_xpm.c `int *colors`, keyed by the 25-bit color key, 0
meaning unassigned) and the running count `ncols`. -/
structure PalState where
  colors : Nat → Nat
  ncols : Nat

/-- Initial palette state: `calloc` zero-fills the table and `ncols = 0`
(cairo_xpm.c lines 161, 169). -/
def initPal : PalState := ⟨fun _ => 0, 0⟩

/-- One iteration of the palette-building loop body, cairo_xpm.c lines
172-180: classify the pixel, then `if (!colors[col]) colors[col] = ++ncols;`. -/
def palStep (s : PalState) (p : Nat) : PalState :=
  let col := pixColorPalette p
  if s.colors col = 0 then
    ⟨fun c => if c = col then s.ncols + 1 else s.colors c, s.ncols + 1⟩
  else s

/-- The whole palette-building pass (cairo_xpm.c lines 168-180) as a fold
over the row-major pixel list. -/
def buildPalette (ps : List Nat) : PalState := ps.foldl palStep initPal

def ncolsOf (img : Img) : Nat := (buildPalette (imgPixels img)).ncols

def colorsOf (img : Img) : Nat → Nat := (buildPalette (imgPixels img)).colors

def cppOf (img : Img) : Nat := num_chars_per_pixel (ncolsOf img)

/-- Specification-side companion of `palStep`: the list of distinct
Colors in first-occurrence order, extended by one pixel. -/
def seenStep (l : List Nat) (p : Nat) : List Nat :=
  let c := pixColorPalette p
  if c ∈ l then l else l ++ [c]

def seenAux (l : List Nat) : List Nat → List Nat
  | [] => l
  | p :: ps => seenAux (seenStep l p) ps

/-- The distinct Colors of a pixel list in first-occurrence order. -/
def seenColors (ps : List Nat) : List Nat := seenAux [] ps

/-- Position of the first occurrence of `c` in a list (length of the list
if absent). -/
def idxOf (c : Nat) : List Nat → Nat
  | [] => 0
  | d :: l => if d = c then 0 else idxOf c l + 1

/-- The palette state corresponds to a first-occurrence list `l`: `ncols`
is its length and the table maps each Color of `l` to its position plus
one, everything else to 0. -/
def PalInv (s : PalState) (l : List Nat) : Prop :=
  s.ncols = l.length ∧ ∀ c, s.colors c = if c ∈ l then idxOf c l + 1 else 0

/-- Concrete 2-by-1 image: left pixel opaque with RGB 0x0000ff, right
pixel opaque with RGB 0x000001.  First-seen color 0xff gets palette index
1, color 0x01 gets index 2. -/
def img2 : Img := ⟨2, 1, fun x _ => if x = 0 then 0xff0000ff else 0xff000001⟩

/-- The base64 alphabet `ctbl` of `col_encode_base64`, cairo_xpm.c line 71. -/
def ctbl : List Char :=
  "ABCDEFGHIJKLMNOPQRSTUVWXYZabcdefghijklmnopqrstuvwxyz0123456789+/".toList

/-- `col_encode_base64` of cairo_xpm.c lines 69-76: the loop
`for (; cpp; cpp--) *dst++ = ctbl[(pix >> ((cpp - 1) * 6)) & 0x3f];`
emits, for the i-th output character (0-based from the left), the alphabet
entry selected by bits `(cpp - 1 - i) * 6 ..+ 6` of `pix`. -/
def col_encode_base64 (pix cpp : Nat) : List Char :=
  (List.range cpp).map (fun i => ctbl.getD ((pix >>> ((cpp - 1 - i) * 6)) &&& 0x3f) 'A')

/-- `col_encode_html` of cairo_xpm.c lines 85-88: `snprintf(dst, 7,
"%06x", c & 0xffffff)`, six lowercase zero-padded hex digits. -/
def col_encode_html (c : Nat) : List Char :=
  (List.range 6).map (fun i => Nat.digitChar (((c &&& 0xffffff) >>> ((5 - i) * 4)) &&& 0xf))

/-- Two's-complement wrap of an integer to signed 32 bits, the value a C
`int` operation yields on the usual targets. -/
def int32 (n : Int) : Int := (n + 2 ^ 31) % 2 ^ 32 - 2 ^ 31

/-- `xpm_size` of cairo_xpm.c lines 93-104: the up-front buffer size
estimate `ctbls = (cpp + 14) * ncols`, `ptbls = ((w * cpp) + 4) * h`,
result `ctbls + ptbls + 256`.  `ctbls`, `ptbls` and the caller's
`xpmsize` are C `int`s, so every arithmetic step wraps at 32 bits
(`int32`); the wrapped final value is what the caller passes to
`malloc`. -/
def xpm_size (w h ncols cpp : Int) : Int :=
  let ctbls := int32 (int32 (cpp + 14) * ncols)
  let ptbls := int32 (int32 (int32 (w * cpp) + 4) * h)
  int32 (int32 (ctbls + ptbls) + 256)

/-- Decimal rendering of a nonnegative integer, as `snprintf`'s `%d`
produces for the header fields. -/
def decRepr (n : Nat) : List Char :=
  if h : n < 10 then [Nat.digitChar n]
  else decRepr (n / 10) ++ [Nat.digitChar (n % 10)]
decreasing_by
  exact Nat.div_lt_self (by omega) (by norm_num)

/-- The header text of cairo_xpm.c lines 196-198: `snprintf(xbuf, size,
"/* XPM */\nstatic char *xpm_c%d_[] = {\n\"%d %d %d %d\"", ncols, w, h,
ncols, cpp)`. -/
def headerStr (w h ncols cpp : Nat) : List Char :=
  "/* XPM */\nstatic char *xpm_c".toList ++ decRepr ncols ++ "_[] = \x7b\n\"".toList ++
    decRepr w ++ " ".toList ++ decRepr h ++ " ".toList ++ decRepr ncols ++
    " ".toList ++ decRepr cpp ++ "\"".toList

/-- One color-table line, cairo_xpm.c lines 207-212: for an RGB key
`",\n\"%s c #%s\""`, for the transparent key (`i = MAX_COL`)
`",\n\"%s c None\""`, the symbol being the base64 encoding of the 0-based
index `colors[i] - 1`. -/
def colorLineStr (colors : Nat → Nat) (cpp i : Nat) : List Char :=
  if i < MAX_COL then
    ",\n\"".toList ++ col_encode_base64 (colors i - 1) cpp ++ " c #".toList ++
      col_encode_html i ++ "\"".toList
  else
    ",\n\"".toList ++ col_encode_base64 (colors i - 1) cpp ++ " c None\"".toList

/-- The keys emitted by the color-table loop of cairo_xpm.c lines
204-215: `for (int i = 0; i < MAX_COL + 1; i++) if (colors[i]) ...`,
in increasing key order. -/
def colorKeys (colors : Nat → Nat) : List Nat :=
  (List.range (MAX_COL + 1)).filter (fun i => colors i != 0)

/-- The color-table lines of an image's XPM document, in emission order. -/
def colorLines (img : Img) : List (List Char) :=
  (colorKeys (colorsOf img)).map (colorLineStr (colorsOf img) (cppOf img))

/-- The symbol characters of one pixel row, cairo_xpm.c lines 223-233:
the concatenation, left to right, of the base64 encodings of
`colors[col] - 1` for each pixel of row `y`. -/
def pixelRowBody (colors : Nat → Nat) (cpp : Nat) (img : Img) (y : Nat) : List Char :=
  ((List.range img.w).map
    (fun x => col_encode_base64 (colors (pixColorRow (img.pix x y)) - 1) cpp)).flatten

/-- One full pixel-row line, cairo_xpm.c lines 220-236: `",\n\""`, the
symbols, then the closing `"\""`. -/
def pixelRowStr (colors : Nat → Nat) (cpp : Nat) (img : Img) (y : Nat) : List Char :=
  ",\n\"".toList ++ pixelRowBody colors cpp img y ++ "\"".toList

/-- The pixel-row lines of an image's XPM document, top to bottom. -/
def pixelRows (img : Img) : List (List Char) :=
  (List.range img.h).map (pixelRowStr (colorsOf img) (cppOf img) img)

/-- The whole XPM document emitted by
`cairo_image_surface_write_to_xpm_mem` (cairo_xpm.c lines 193-241):
header, color table, pixel table, closing `"\n};\n"`. -/
def xpmDoc (img : Img) : List Char :=
  headerStr img.w img.h (ncolsOf img) (cppOf img) ++
    (colorLines img).flatten ++ (pixelRows img).flatten ++ "\n\x7d;\n".toList

/-- Concrete 65-by-1 image with 65 distinct opaque colors 0..64. -/
def img65 : Img := ⟨65, 1, fun x _ => 0xff000000 + x⟩

/-- Concrete 1-by-1 fully transparent image. -/
def imgT : Img := ⟨1, 1, fun _ _ => 0⟩

/-- Concrete zero-width image with one row. -/
def img01 : Img := ⟨0, 1, fun _ _ => 0⟩

/-- Return statuses of the encoder entry points (subset of
`cairo_status_t` used by cairo_xpm.c). -/
inductive CairoStatus where
  | success
  | invalidFormat
  | noMemory
  | writeError
  | deviceError
deriving DecidableEq

/-- Environment of a `cairo_image_surface_write_to_xpm_mem` call: the
outcomes of its three external failure points — the input-format check /
surface conversion (cairo_xpm.c lines 132-155), the `calloc` of the color
table (line 161), and the `malloc` of the output buffer (line 185). -/
structure MemEnv where
  fmtOk : Bool
  callocOk : Bool
  mallocOk : Bool

/-- Observable result of `cairo_image_surface_write_to_xpm_mem`: the
returned status and the caller's `*data` / `*len`. -/
structure MemResult where
  status : CairoStatus
  data : Option (List Char)
  len : Nat

/-- Shallow model of `cairo_image_surface_write_to_xpm_mem`
(cairo_xpm.c lines 122-253): `*data = NULL; *len = 0` are set first
(lines 128-129); each failure exit (lines 148, 165, 190) returns before
they are overwritten; the success path stores the whole document and its
length (lines 249-250). -/
def write_to_xpm_mem (env : MemEnv) (img : Img) : MemResult :=
  if ¬ env.fmtOk then ⟨CairoStatus.invalidFormat, none, 0⟩
  else if ¬ env.callocOk then ⟨CairoStatus.noMemory, none, 0⟩
  else if ¬ env.mallocOk then ⟨CairoStatus.noMemory, none, 0⟩
  else ⟨CairoStatus.success, some (xpmDoc img), (xpmDoc img).length⟩

/-- The all-successful environment: supported input format and both
allocations succeed. -/
def envAllOk : MemEnv := ⟨true, true, true⟩

/-- Shallow model of `cairo_image_surface_write_to_xpm_stream`
(cairo_xpm.c lines 278-295): on encoder failure the error is returned
and the callback is never invoked; on success the callback is invoked
exactly once with the complete buffer and its status is returned.  The
second component records the callback invocations (buffer, length). -/
def write_to_xpm_stream (env : MemEnv) (img : Img)
    (write_func : List Char → Nat → CairoStatus) :
    CairoStatus × List (List Char × Nat) :=
  match write_to_xpm_mem env img with
  | ⟨CairoStatus.success, d, len⟩ => (write_func (d.getD []) len, [(d.getD [], len)])
  | ⟨e, _, _⟩ => (e, [])

lemma bpcLoop_eq (n : Nat) :
    bpcLoop n = if n = 0 then 0 else bpcLoop (n >>> 1) + 1 := by
  rw [bpcLoop]
  split <;> simp_all

lemma bpcLoop_le_iff (n : Nat) : ∀ b : Nat, bpcLoop n ≤ b ↔ n < 2 ^ b := by
  induction n using Nat.strong_induction_on with
  | _ n ih =>
    intro b
    rw [bpcLoop_eq]
    by_cases h : n = 0
    · subst h
      simp [Nat.pos_pow_of_pos]
    · simp only [h, if_false]
      cases b with
      | zero =>
        simp only [pow_zero, Nat.lt_one_iff]
        omega
      | succ b =>
        have hlt : n >>> 1 < n := by
          simp only [Nat.shiftRight_eq_div_pow, pow_one]
          exact Nat.div_lt_self (Nat.pos_of_ne_zero h) one_lt_two
        rw [Nat.succ_le_succ_iff, ih (n >>> 1) hlt b, Nat.shiftRight_eq_div_pow,
          pow_one, pow_succ]
        exact Nat.div_lt_iff_lt_mul two_pos

lemma bpcLoop_lt (n : Nat) : n < 2 ^ bpcLoop n :=
  (bpcLoop_le_iff n (bpcLoop n)).1 le_rfl

lemma bpcLoop_mono {m n : Nat} (h : m ≤ n) : bpcLoop m ≤ bpcLoop n :=
  (bpcLoop_le_iff m (bpcLoop n)).2 (lt_of_le_of_lt h (bpcLoop_lt n))

lemma num_chars_per_pixel_eq (n : Nat) :
    num_chars_per_pixel n = (bpcLoop n + 5) / 6 := by
  simp only [num_chars_per_pixel]
  split <;> omega

lemma num_chars_per_pixel_mono {m n : Nat} (h : m ≤ n) :
    num_chars_per_pixel m ≤ num_chars_per_pixel n := by
  rw [num_chars_per_pixel_eq, num_chars_per_pixel_eq]
  exact Nat.div_le_div_right (by have := bpcLoop_mono h; omega)

lemma six_mul_num_chars (n : Nat) : bpcLoop n ≤ 6 * num_chars_per_pixel n := by
  rw [num_chars_per_pixel_eq]
  omega

lemma lt_pow64_num_chars (n : Nat) : n < 64 ^ num_chars_per_pixel n := by
  have h1 : n < 2 ^ bpcLoop n := bpcLoop_lt n
  have h2 : (2 : Nat) ^ bpcLoop n ≤ 2 ^ (6 * num_chars_per_pixel n) :=
    Nat.pow_le_pow_right (by norm_num) (six_mul_num_chars n)
  calc n < 2 ^ bpcLoop n := h1
    _ ≤ 2 ^ (6 * num_chars_per_pixel n) := h2
    _ = 64 ^ num_chars_per_pixel n := by
        rw [pow_mul]
        norm_num

/-- Claim C1: in both the palette-building pass and the row-emission pass,
a pixel's Color is the TRANSPARENT sentinel (`MAX_COL`) iff the pixel's
alpha byte `(pixel >> 24) & 0xff` is strictly below `TRANS_THRESH = 0x80`,
and otherwise equals the pixel's low 24 RGB bits `pixel & 0x00ffffff`. -/
theorem pixel_color_rule (p : Nat) :
    (pixColorPalette p = MAX_COL ↔ (p >>> 24) &&& 0xff < 0x80) ∧
    (¬ (p >>> 24) &&& 0xff < 0x80 → pixColorPalette p = p &&& 0xffffff) ∧
    (pixColorRow p = MAX_COL ↔ (p >>> 24) &&& 0xff < 0x80) ∧
    (¬ (p >>> 24) &&& 0xff < 0x80 → pixColorRow p = p &&& 0xffffff) := by
  have hmask : p &&& 0xffffff < MAX_COL :=
    lt_of_le_of_lt Nat.and_le_right (by norm_num [MAX_COL])
  unfold pixColorPalette pixColorRow TRANS_THRESH
  refine ⟨?_, ?_, ?_, ?_⟩ <;> by_cases h : (p >>> 24) &&& 0xff < 0x80 <;>
    simp [h] <;> omega

/-- Witness for `pixel_color_rule` at the opaque pixel 0xff123456. -/
theorem pixel_color_rule_witness :
    ¬ (0xff123456 >>> 24) &&& 0xff < 0x80 ∧
      pixColorPalette 0xff123456 = 0xff123456 &&& 0xffffff := by
  refine ⟨by decide, (pixel_color_rule 0xff123456).2.1 (by decide)⟩

/-- Claim C3: the symbol-width function `num_chars_per_pixel` satisfies
`symbolWidth(paletteSize) = ceil(bitsNeeded / 6)` where `bitsNeeded`
(computed by `bpcLoop`) is the bit-length of `paletteSize`, i.e. the
smallest `b ≥ 0` with `2^b > paletteSize`; `symbolWidth 0 = 0`;
`symbolWidth` is monotone non-decreasing; and `64^symbolWidth(n) > n - 1`
for every `n ≥ 1`. -/
theorem num_chars_per_pixel_spec :
    (∀ n b : Nat, 2 ^ b > n ↔ bpcLoop n ≤ b) ∧
    (∀ n : Nat, num_chars_per_pixel n = (bpcLoop n + 5) / 6) ∧
    num_chars_per_pixel 0 = 0 ∧
    (∀ m n : Nat, m ≤ n → num_chars_per_pixel m ≤ num_chars_per_pixel n) ∧
    (∀ n : Nat, 1 ≤ n → 64 ^ num_chars_per_pixel n > n - 1) := by
  refine ⟨fun n b => (bpcLoop_le_iff n b).symm, num_chars_per_pixel_eq, ?_,
    fun m n h => num_chars_per_pixel_mono h, fun n hn => ?_⟩
  · rw [num_chars_per_pixel_eq, bpcLoop_eq]
    norm_num
  · have := lt_pow64_num_chars n
    omega

/-- Witness for `num_chars_per_pixel_spec`: instantiates the bit-length
characterization at 5/3 and the power bound at n = 65. -/
theorem num_chars_per_pixel_spec_witness :
    (2 ^ 3 > 5 ↔ bpcLoop 5 ≤ 3) ∧ 64 ^ num_chars_per_pixel 65 > 65 - 1 := by
  exact ⟨num_chars_per_pixel_spec.1 5 3, num_chars_per_pixel_spec.2.2.2.2 65 (by norm_num)⟩

lemma idxOf_append_left {c : Nat} {l : List Nat} (l2 : List Nat) (h : c ∈ l) :
    idxOf c (l ++ l2) = idxOf c l := by
  induction l with
  | nil => cases h
  | cons d l ih =>
    by_cases hd : d = c
    · simp [idxOf, hd]
    · rcases List.mem_cons.1 h with h1 | h1
      · exact absurd h1.symm hd
      · simp [idxOf, hd, ih h1]

lemma idxOf_append_right {c : Nat} {l : List Nat} (l2 : List Nat) (h : c ∉ l) :
    idxOf c (l ++ l2) = l.length + idxOf c l2 := by
  induction l with
  | nil => simp
  | cons d l ih =>
    have hd : d ≠ c := fun he => h (by simp [he])
    have h' : c ∉ l := fun hm => h (List.mem_cons_of_mem d hm)
    simp [idxOf, hd, ih h']
    omega

lemma idxOf_lt_length {c : Nat} {l : List Nat} (h : c ∈ l) : idxOf c l < l.length := by
  induction l with
  | nil => cases h
  | cons d l ih =>
    by_cases hd : d = c
    · simp [idxOf, hd]
    · rcases List.mem_cons.1 h with h1 | h1
      · exact absurd h1.symm hd
      · simp only [idxOf, if_neg hd, List.length_cons]
        exact Nat.succ_lt_succ (ih h1)

lemma idxOf_inj {c1 c2 : Nat} {l : List Nat} (h1 : c1 ∈ l) (h2 : c2 ∈ l)
    (he : idxOf c1 l = idxOf c2 l) : c1 = c2 := by
  induction l with
  | nil => cases h1
  | cons d l ih =>
    simp only [idxOf] at he
    by_cases hd1 : d = c1 <;> by_cases hd2 : d = c2
    · omega
    · rw [if_pos hd1, if_neg hd2] at he
      omega
    · rw [if_neg hd1, if_pos hd2] at he
      omega
    · rw [if_neg hd1, if_neg hd2] at he
      rcases List.mem_cons.1 h1 with h1' | h1'
      · exact absurd h1'.symm hd1
      rcases List.mem_cons.1 h2 with h2' | h2'
      · exact absurd h2'.symm hd2
      exact ih h1' h2' (by omega)

lemma idxOf_surj {l : List Nat} (hnd : l.Nodup) :
    ∀ j, j < l.length → ∃ c, c ∈ l ∧ idxOf c l = j := by
  induction l with
  | nil => intro j hj; simp at hj
  | cons d l ih =>
    intro j hj
    cases j with
    | zero => exact ⟨d, List.mem_cons_self d l, by simp [idxOf]⟩
    | succ j =>
      have hnd' : l.Nodup := (List.nodup_cons.1 hnd).2
      have hd : d ∉ l := (List.nodup_cons.1 hnd).1
      obtain ⟨c, hc, hidx⟩ := ih hnd' j (by simpa using hj)
      refine ⟨c, List.mem_cons.2 (Or.inr hc), ?_⟩
      have : d ≠ c := fun he => hd (he ▸ hc)
      simp [idxOf, this, hidx]

lemma palStep_inv {s : PalState} {l : List Nat} (p : Nat)
    (hinv : PalInv s l) (hnd : l.Nodup) :
    PalInv (palStep s p) (seenStep l p) ∧ (seenStep l p).Nodup := by
  obtain ⟨hn, hc⟩ := hinv
  by_cases hm : pixColorPalette p ∈ l
  · have hz : s.colors (pixColorPalette p) ≠ 0 := by
      rw [hc]
      simp [hm]
    unfold palStep seenStep
    simp only [if_neg hz, if_pos hm]
    exact ⟨⟨hn, hc⟩, hnd⟩
  · have hz : s.colors (pixColorPalette p) = 0 := by
      rw [hc]
      simp [hm]
    unfold palStep seenStep
    simp only [if_pos hz, if_neg hm]
    refine ⟨⟨by simp [hn], fun c => ?_⟩, ?_⟩
    · by_cases hcp : c = pixColorPalette p
      · subst hcp
        dsimp only
        rw [if_pos rfl, if_pos (by simp)]
        rw [idxOf_append_right [pixColorPalette p] hm]
        simp [idxOf, hn]
      · dsimp only
        rw [if_neg hcp, hc c]
        by_cases hcl : c ∈ l
        · rw [if_pos hcl, if_pos (by simp [hcl]), idxOf_append_left [pixColorPalette p] hcl]
        · rw [if_neg hcl, if_neg (by simp [hcl, hcp])]
    · rw [← List.concat_eq_append]
      exact List.Nodup.concat hm hnd

lemma foldl_palette_inv (ps : List Nat) :
    ∀ s l, PalInv s l → l.Nodup →
      PalInv (ps.foldl palStep s) (seenAux l ps) ∧ (seenAux l ps).Nodup := by
  induction ps with
  | nil => exact fun s l hinv hnd => ⟨hinv, hnd⟩
  | cons p ps ih =>
    intro s l hinv hnd
    obtain ⟨hinv', hnd'⟩ := palStep_inv p hinv hnd
    exact ih (palStep s p) (seenStep l p) hinv' hnd'

lemma initPal_inv : PalInv initPal [] := by
  constructor <;> simp [initPal]

lemma buildPalette_inv (ps : List Nat) :
    PalInv (buildPalette ps) (seenColors ps) ∧ (seenColors ps).Nodup :=
  foldl_palette_inv ps initPal [] initPal_inv List.nodup_nil

lemma buildPalette_ncols (ps : List Nat) :
    (buildPalette ps).ncols = (seenColors ps).length :=
  (buildPalette_inv ps).1.1

lemma buildPalette_colors (ps : List Nat) (c : Nat) :
    (buildPalette ps).colors c =
      if c ∈ seenColors ps then idxOf c (seenColors ps) + 1 else 0 :=
  (buildPalette_inv ps).1.2 c

lemma seenColors_nodup (ps : List Nat) : (seenColors ps).Nodup :=
  (buildPalette_inv ps).2

lemma mem_seenAux (ps : List Nat) :
    ∀ l c, c ∈ seenAux l ps ↔ c ∈ l ∨ c ∈ ps.map pixColorPalette := by
  induction ps with
  | nil => simp [seenAux]
  | cons p ps ih =>
    intro l c
    rw [seenAux, ih]
    unfold seenStep
    by_cases hm : pixColorPalette p ∈ l
    · simp only [if_pos hm, List.map_cons, List.mem_cons]
      constructor
      · rintro (h | h)
        · exact Or.inl h
        · exact Or.inr (Or.inr h)
      · rintro (h | h | h)
        · exact Or.inl h
        · exact Or.inl (h ▸ hm)
        · exact Or.inr h
    · simp only [if_neg hm, List.map_cons, List.mem_cons, List.mem_append,
        List.mem_singleton]
      tauto

lemma mem_seenColors (ps : List Nat) (c : Nat) :
    c ∈ seenColors ps ↔ c ∈ ps.map pixColorPalette :=
  (mem_seenAux ps [] c).trans (by simp)

lemma seenAux_length_le (ps : List Nat) :
    ∀ l, (seenAux l ps).length ≤ l.length + ps.length := by
  induction ps with
  | nil => simp [seenAux]
  | cons p ps ih =>
    intro l
    rw [seenAux]
    refine le_trans (ih (seenStep l p)) ?_
    unfold seenStep
    by_cases hm : pixColorPalette p ∈ l <;> simp [hm] <;> omega

lemma seenColors_length_le (ps : List Nat) :
    (seenColors ps).length ≤ ps.length := by
  have := seenAux_length_le ps []
  simpa [seenColors] using this

lemma seenAux_append (l1 l2 : List Nat) :
    ∀ acc, seenAux acc (l1 ++ l2) = seenAux (seenAux acc l1) l2 := by
  induction l1 with
  | nil => intro acc; rfl
  | cons p ps ih =>
    intro acc
    rw [List.cons_append, seenAux, seenAux, ih]

lemma seenAux_extends (ps : List Nat) :
    ∀ acc, ∃ ex, seenAux acc ps = acc ++ ex := by
  induction ps with
  | nil => exact fun acc => ⟨[], by simp [seenAux]⟩
  | cons p ps ih =>
    intro acc
    rw [seenAux]
    unfold seenStep
    by_cases hm : pixColorPalette p ∈ acc
    · rw [if_pos hm]
      exact ih acc
    · rw [if_neg hm]
      obtain ⟨ex, hex⟩ := ih (acc ++ [pixColorPalette p])
      exact ⟨pixColorPalette p :: ex, by simp [hex]⟩

lemma pixColorPalette_le (p : Nat) : pixColorPalette p ≤ MAX_COL := by
  unfold pixColorPalette
  split
  · exact le_rfl
  · exact le_trans Nat.and_le_right (by norm_num [MAX_COL])

lemma seenColors_length_le_maxcol (ps : List Nat) :
    (seenColors ps).length ≤ MAX_COL + 1 := by
  have hnd := seenColors_nodup ps
  have hsub : seenColors ps ⊆ List.range (MAX_COL + 1) := by
    intro c hc
    rw [List.mem_range]
    rw [mem_seenColors] at hc
    obtain ⟨p, _, hp⟩ := List.mem_map.1 hc
    rw [← hp]
    exact Nat.lt_succ_of_le (pixColorPalette_le p)
  calc (seenColors ps).length ≤ (List.range (MAX_COL + 1)).length :=
        (List.subperm_of_subset hnd hsub).length_le
    _ = MAX_COL + 1 := by simp

lemma imgPixels_length (img : Img) : (imgPixels img).length = img.w * img.h := by
  unfold imgPixels
  rw [List.length_flatten, List.map_map]
  have : (List.length ∘ fun y => (List.range img.w).map (fun x => img.pix x y)) =
      fun _ => img.w := by
    funext y
    simp
  rw [this, List.map_const', List.sum_replicate, smul_eq_mul, List.length_range]
  exact Nat.mul_comm img.h img.w

lemma mem_map_take {ps : List Nat} {k : Nat} {c : Nat}
    (h : c ∈ (ps.take k).map pixColorPalette) :
    ∃ j, j < k ∧ j < ps.length ∧ pixColorPalette (ps.getD j 0) = c := by
  obtain ⟨p, hp, hpc⟩ := List.mem_map.1 h
  obtain ⟨j, hj, hjp⟩ := List.mem_iff_getElem.1 hp
  have hjk : j < k := lt_of_lt_of_le hj (by simp)
  have hjl : j < ps.length := lt_of_lt_of_le hj (by simp)
  refine ⟨j, hjk, hjl, ?_⟩
  rw [List.getD_eq_getElem ps 0 hjl, ← List.getElem_take ps, hjp, hpc]

lemma colors_first_occurrence {ps : List Nat} {k : Nat} (hk : k < ps.length)
    (hfirst : ∀ j ∈ List.range k,
      pixColorPalette (ps.getD j 0) ≠ pixColorPalette (ps.getD k 0)) :
    (buildPalette ps).colors (pixColorPalette (ps.getD k 0)) =
      (seenColors (ps.take k)).length + 1 := by
  set c := pixColorPalette (ps.getD k 0) with hc
  set l := seenColors (ps.take k) with hl
  have hcl : c ∉ l := by
    intro hmem
    rw [hl, mem_seenColors] at hmem
    obtain ⟨j, hjk, hjl, hj⟩ := mem_map_take hmem
    exact hfirst j (List.mem_range.2 hjk) hj
  have hsplit : seenColors ps = seenAux l (ps.drop k) := by
    rw [hl, seenColors, seenColors, ← seenAux_append, List.take_append_drop]
  have hdrop : ps.drop k = ps.getD k 0 :: ps.drop (k + 1) := by
    rw [List.getD_eq_getElem ps 0 hk]
    exact List.drop_eq_getElem_cons hk
  obtain ⟨ex, hex⟩ := seenAux_extends (ps.drop (k + 1)) (l ++ [c])
  have hseen : seenColors ps = l ++ [c] ++ ex := by
    rw [hsplit, hdrop, seenAux]
    rw [show seenStep l (ps.getD k 0) = l ++ [c] by
      unfold seenStep
      rw [← hc, if_neg hcl]]
    exact hex
  have hmem : c ∈ seenColors ps := by
    rw [hseen]
    simp
  rw [buildPalette_colors ps c, if_pos hmem, hseen, List.append_assoc,
    idxOf_append_right ([c] ++ ex) hcl]
  simp [idxOf]

lemma seenColors_length_eq_dedup (ps : List Nat) :
    (seenColors ps).length = (ps.map pixColorPalette).dedup.length := by
  have h1 : (seenColors ps).Nodup := seenColors_nodup ps
  have h2 : (ps.map pixColorPalette).dedup.Nodup := List.nodup_dedup _
  have hperm : (seenColors ps).Perm (ps.map pixColorPalette).dedup :=
    (List.perm_ext_iff_of_nodup h1 h2).2 (fun a => by
      rw [mem_seenColors, List.mem_dedup])
  exact hperm.length_eq

/-- Claim C2: after the palette-building pass, the assigned indices are
exactly the contiguous range `1..paletteSize` with no gaps (every index in
the range is hit) and no duplicates (the table is injective on assigned
keys); a Color whose first occurrence in row-major order is at position
`k` receives index `1 +` (number of distinct Colors among the pixels
before position `k`), i.e. indices are assigned in strict first-occurrence
order starting at 1; and `paletteSize ≤ min (W*H) (2^24 + 1)`. -/
theorem palette_invariants (img : Img) :
    (∀ c, colorsOf img c ≠ 0 →
      1 ≤ colorsOf img c ∧ colorsOf img c ≤ ncolsOf img) ∧
    (∀ i, 1 ≤ i → i ≤ ncolsOf img → ∃ c, colorsOf img c = i) ∧
    (∀ c1 c2, colorsOf img c1 ≠ 0 → colorsOf img c1 = colorsOf img c2 →
      c1 = c2) ∧
    (∀ k, k < (imgPixels img).length →
      (∀ j ∈ List.range k, pixColorPalette ((imgPixels img).getD j 0) ≠
        pixColorPalette ((imgPixels img).getD k 0)) →
      colorsOf img (pixColorPalette ((imgPixels img).getD k 0)) =
        (((imgPixels img).take k).map pixColorPalette).dedup.length + 1) ∧
    ncolsOf img ≤ min (img.w * img.h) (2 ^ 24 + 1) := by
  set ps := imgPixels img with hps
  refine ⟨?_, ?_, ?_, ?_, ?_⟩
  · intro c hc
    unfold colorsOf ncolsOf at *
    rw [← hps] at *
    rw [buildPalette_colors] at hc ⊢
    rw [buildPalette_ncols]
    by_cases hm : c ∈ seenColors ps
    · rw [if_pos hm]
      exact ⟨by omega, Nat.succ_le_of_lt (idxOf_lt_length hm)⟩
    · rw [if_neg hm] at hc
      exact absurd rfl hc
  · intro i h1 h2
    unfold colorsOf ncolsOf at *
    rw [← hps] at *
    rw [buildPalette_ncols] at h2
    obtain ⟨c, hcm, hci⟩ := idxOf_surj (seenColors_nodup ps) (i - 1) (by omega)
    refine ⟨c, ?_⟩
    rw [buildPalette_colors, if_pos hcm, hci]
    omega
  · intro c1 c2 h1 he
    unfold colorsOf at *
    rw [← hps] at *
    rw [buildPalette_colors] at h1 he
    rw [buildPalette_colors ps c2] at he
    by_cases hm1 : c1 ∈ seenColors ps
    · by_cases hm2 : c2 ∈ seenColors ps
      · rw [if_pos hm1, if_pos hm2] at he
        exact idxOf_inj hm1 hm2 (by omega)
      · rw [if_pos hm1, if_neg hm2] at he
        omega
    · rw [if_neg hm1] at h1
      exact absurd rfl h1
  · intro k hk hfirst
    unfold colorsOf
    rw [← hps, colors_first_occurrence hk hfirst, seenColors_length_eq_dedup]
  · unfold ncolsOf
    rw [← hps, buildPalette_ncols]
    refine le_min ?_ ?_
    · calc (seenColors ps).length ≤ ps.length := seenColors_length_le ps
        _ = img.w * img.h := by rw [hps, imgPixels_length]
    · have := seenColors_length_le_maxcol ps
      unfold MAX_COL at this
      omega

/-- Witness for `palette_invariants` on `img2`. -/
theorem palette_invariants_witness :
    colorsOf img2 0xff ≠ 0 ∧
    (1 ≤ colorsOf img2 0xff ∧ colorsOf img2 0xff ≤ ncolsOf img2) ∧
    1 < (imgPixels img2).length ∧
    colorsOf img2 (pixColorPalette ((imgPixels img2).getD 1 0)) =
      (((imgPixels img2).take 1).map pixColorPalette).dedup.length + 1 := by
  refine ⟨by decide, (palette_invariants img2).1 0xff (by decide), by decide,
    (palette_invariants img2).2.2.2.1 1 (by decide) (by decide)⟩

lemma col_encode_base64_length (pix cpp : Nat) :
    (col_encode_base64 pix cpp).length = cpp := by
  simp [col_encode_base64]

lemma col_encode_html_length (c : Nat) : (col_encode_html c).length = 6 := by
  simp [col_encode_html]

lemma decRepr_eq (n : Nat) :
    decRepr n = if n < 10 then [Nat.digitChar n]
      else decRepr (n / 10) ++ [Nat.digitChar (n % 10)] := by
  rw [decRepr]
  split <;> simp_all

lemma decRepr_length_le : ∀ k n : Nat, n < 10 ^ k → 1 ≤ k →
    (decRepr n).length ≤ k := by
  intro k
  induction k with
  | zero => intro n _ h1; omega
  | succ k ih =>
    intro n hn _
    rw [decRepr_eq]
    by_cases h : n < 10
    · rw [if_pos h]
      simp
    · rw [if_neg h]
      have hk : 1 ≤ k := by
        rcases Nat.eq_zero_or_pos k with hk0 | hk0
        · subst hk0
          norm_num at hn
          omega
        · exact hk0
      have hdiv : n / 10 < 10 ^ k := by
        rw [Nat.div_lt_iff_lt_mul (by norm_num)]
        calc n < 10 ^ (k + 1) := hn
          _ = 10 ^ k * 10 := by ring
      have := ih (n / 10) hdiv hk
      simp only [List.length_append, List.length_cons, List.length_nil]
      omega

lemma colorLineStr_length_le (colors : Nat → Nat) (cpp i : Nat) :
    (colorLineStr colors cpp i).length ≤ cpp + 14 := by
  unfold colorLineStr
  split <;>
    simp [List.length_append, col_encode_base64_length, col_encode_html_length]

lemma pixelRowBody_length (colors : Nat → Nat) (cpp : Nat) (img : Img) (y : Nat) :
    (pixelRowBody colors cpp img y).length = img.w * cpp := by
  unfold pixelRowBody
  rw [List.length_flatten, List.map_map]
  have hc : (List.length ∘ fun x =>
      col_encode_base64 (colors (pixColorRow (img.pix x y)) - 1) cpp) =
      fun _ => cpp := by
    funext x
    simp [col_encode_base64_length]
  rw [hc, List.map_const', List.sum_replicate, smul_eq_mul, List.length_range]

lemma pixelRowStr_length (colors : Nat → Nat) (cpp : Nat) (img : Img) (y : Nat) :
    (pixelRowStr colors cpp img y).length = img.w * cpp + 4 := by
  unfold pixelRowStr
  simp only [List.length_append, pixelRowBody_length]
  norm_num
  omega

lemma pixelRows_flatten_length (img : Img) :
    (pixelRows img).flatten.length = (img.w * cppOf img + 4) * img.h := by
  unfold pixelRows
  rw [List.length_flatten, List.map_map]
  have hc : (List.length ∘ pixelRowStr (colorsOf img) (cppOf img) img) =
      fun _ => img.w * cppOf img + 4 := by
    funext y
    simp [pixelRowStr_length]
  rw [hc, List.map_const', List.sum_replicate, smul_eq_mul, List.length_range,
    Nat.mul_comm]

lemma pixColorRow_eq_palette (p : Nat) : pixColorRow p = pixColorPalette p := rfl

lemma pix_mem_imgPixels (img : Img) {x y : Nat} (hx : x < img.w) (hy : y < img.h) :
    img.pix x y ∈ imgPixels img := by
  unfold imgPixels
  rw [List.mem_flatten]
  refine ⟨(List.range img.w).map (fun x => img.pix x y), ?_, ?_⟩
  · exact List.mem_map.2 ⟨y, List.mem_range.2 hy, rfl⟩
  · exact List.mem_map.2 ⟨x, List.mem_range.2 hx, rfl⟩

lemma colors_ne_zero_iff (ps : List Nat) (i : Nat) :
    (buildPalette ps).colors i ≠ 0 ↔ i ∈ seenColors ps := by
  rw [buildPalette_colors]
  by_cases hm : i ∈ seenColors ps <;> simp [hm]

lemma mem_colorKeys (ps : List Nat) (i : Nat) :
    i ∈ colorKeys (buildPalette ps).colors ↔ i ∈ seenColors ps := by
  unfold colorKeys
  rw [List.mem_filter, List.mem_range]
  constructor
  · rintro ⟨_, hne⟩
    exact (colors_ne_zero_iff ps i).1 (by simpa using hne)
  · intro hm
    refine ⟨?_, by simpa using (colors_ne_zero_iff ps i).2 hm⟩
    rw [mem_seenColors] at hm
    obtain ⟨p, _, hp⟩ := List.mem_map.1 hm
    rw [← hp]
    exact Nat.lt_succ_of_le (pixColorPalette_le p)

lemma colorKeys_nodup (colors : Nat → Nat) : (colorKeys colors).Nodup :=
  (List.nodup_range _).filter _

lemma colorKeys_sorted (colors : Nat → Nat) :
    List.Pairwise (· < ·) (colorKeys colors) :=
  (List.pairwise_lt_range _).filter _

lemma colorKeys_le (colors : Nat → Nat) : ∀ i ∈ colorKeys colors, i ≤ MAX_COL := by
  intro i hi
  have := (List.mem_filter.1 hi).1
  rw [List.mem_range] at this
  omega

lemma colorKeys_length (ps : List Nat) :
    (colorKeys (buildPalette ps).colors).length = (buildPalette ps).ncols := by
  rw [buildPalette_ncols]
  exact ((List.perm_ext_iff_of_nodup (colorKeys_nodup _) (seenColors_nodup ps)).2
    (fun a => mem_colorKeys ps a)).length_eq

lemma colorKeys_of_support {colors : Nat → Nat} {l : List Nat}
    (hnd : l.Nodup) (hsort : List.Pairwise (· < ·) l)
    (hmem : ∀ i, colors i ≠ 0 ↔ i ∈ l) (hlt : ∀ i ∈ l, i < MAX_COL + 1) :
    colorKeys colors = l := by
  have hperm : (colorKeys colors).Perm l :=
    (List.perm_ext_iff_of_nodup (colorKeys_nodup colors) hnd).2 (fun a => by
      unfold colorKeys
      rw [List.mem_filter, List.mem_range]
      constructor
      · rintro ⟨_, hne⟩
        exact (hmem a).1 (by simpa using hne)
      · intro ha
        exact ⟨hlt a ha, by simpa using (hmem a).2 ha⟩)
  exact List.eq_of_perm_of_sorted hperm ((colorKeys_sorted colors).imp le_of_lt)
    (hsort.imp le_of_lt)

lemma sorted_getLast_eq {l : List Nat} {a : Nat} (hs : List.Pairwise (· < ·) l)
    (ha : a ∈ l) (hmax : ∀ b ∈ l, b ≤ a) : l.getLast? = some a := by
  induction l with
  | nil => cases ha
  | cons d l ih =>
    cases l with
    | nil =>
      rw [List.mem_singleton] at ha
      rw [ha]
      rfl
    | cons e t =>
      rw [List.getLast?_cons_cons]
      have hs' : List.Pairwise (· < ·) (e :: t) := (List.pairwise_cons.1 hs).2
      have hd_lt : ∀ b ∈ e :: t, d < b := (List.pairwise_cons.1 hs).1
      have ha' : a ∈ e :: t := by
        rcases List.mem_cons.1 ha with h1 | h1
        · exfalso
          have hde : d < e := hd_lt e (List.mem_cons_self e t)
          have : e ≤ a := hmax e (List.mem_cons_of_mem d (List.mem_cons_self e t))
          omega
        · exact h1
      exact ih hs' ha' (fun b hb => hmax b (List.mem_cons_of_mem d hb))

lemma getD_map_range {α : Type} {n j : Nat} (f : Nat → α) (d : α) (hj : j < n) :
    ((List.range n).map f).getD j d = f j := by
  rw [List.getD_eq_getElem _ d (by simpa using hj)]
  simp

lemma num_chars_per_pixel_small {n : Nat} (h1 : 1 ≤ n) (h2 : n ≤ 63) :
    num_chars_per_pixel n = 1 := by
  have hub : bpcLoop n ≤ 6 := (bpcLoop_le_iff n 6).2 (by norm_num; omega)
  have hlb : ¬ bpcLoop n ≤ 0 := fun hc => by
    have := (bpcLoop_le_iff n 0).1 hc
    omega
  rw [num_chars_per_pixel_eq]
  omega

lemma num_chars_per_pixel_two {n : Nat} (h1 : 64 ≤ n) (h2 : n ≤ 4095) :
    num_chars_per_pixel n = 2 := by
  have hub : bpcLoop n ≤ 12 := (bpcLoop_le_iff n 12).2 (by norm_num; omega)
  have hlb : ¬ bpcLoop n ≤ 6 := fun hc => by
    have := (bpcLoop_le_iff n 6).1 hc
    norm_num at this
    omega
  rw [num_chars_per_pixel_eq]
  omega

lemma cpp_le_five {n : Nat} (h : n ≤ 2 ^ 24 + 1) : num_chars_per_pixel n ≤ 5 := by
  have hub : bpcLoop n ≤ 25 := (bpcLoop_le_iff n 25).2 (by norm_num at h ⊢; omega)
  rw [num_chars_per_pixel_eq]
  omega

lemma ncolsOf_le (img : Img) : ncolsOf img ≤ 2 ^ 24 + 1 := by
  unfold ncolsOf
  rw [buildPalette_ncols]
  have := seenColors_length_le_maxcol (imgPixels img)
  unfold MAX_COL at this
  norm_num at this ⊢
  omega

lemma colorLines_flatten_length_le (img : Img) :
    (colorLines img).flatten.length ≤ (cppOf img + 14) * ncolsOf img := by
  unfold colorLines
  rw [List.length_flatten, List.map_map]
  have hb : ∀ n ∈ (colorKeys (colorsOf img)).map
      (List.length ∘ colorLineStr (colorsOf img) (cppOf img)), n ≤ cppOf img + 14 := by
    intro n hn
    obtain ⟨i, _, hi⟩ := List.mem_map.1 hn
    rw [← hi]
    exact colorLineStr_length_le _ _ _
  calc ((colorKeys (colorsOf img)).map
        (List.length ∘ colorLineStr (colorsOf img) (cppOf img))).sum
      ≤ ((colorKeys (colorsOf img)).map
        (List.length ∘ colorLineStr (colorsOf img) (cppOf img))).length •
          (cppOf img + 14) := List.sum_le_card_nsmul _ _ hb
    _ = (cppOf img + 14) * ncolsOf img := by
        rw [smul_eq_mul, List.length_map]
        unfold colorsOf ncolsOf at *
        rw [colorKeys_length]
        exact Nat.mul_comm _ _

lemma headerStr_length_le {w h ncols cpp : Nat} (hw : w ≤ 0x7fffffff)
    (hh : h ≤ 0x7fffffff) (hn : ncols ≤ 2 ^ 24 + 1) (hc : cpp ≤ 5) :
    (headerStr w h ncols cpp).length ≤ 252 := by
  unfold headerStr
  have h1 : (decRepr w).length ≤ 10 :=
    decRepr_length_le 10 w (by norm_num; omega) (by norm_num)
  have h2 : (decRepr h).length ≤ 10 :=
    decRepr_length_le 10 h (by norm_num; omega) (by norm_num)
  have h3 : (decRepr ncols).length ≤ 8 :=
    decRepr_length_le 8 ncols (by norm_num at hn ⊢; omega) (by norm_num)
  have h4 : (decRepr cpp).length ≤ 1 :=
    decRepr_length_le 1 cpp (by omega) (by norm_num)
  simp only [List.length_append]
  norm_num
  omega

/-- Claim C4: every emitted pixel-row symbol string has exactly
`W * symbolWidth` characters and is the left-to-right concatenation over
the row's pixels of the encoding of each pixel's 0-based palette index
`colors[col] - 1`; every such index is in `[0, 64^symbolWidth)` (with the
1-based entry at least 1), and each encoded character is drawn
most-significant-symbol-first from the 64-character alphabet `ctbl`
(A-Z, a-z, 0-9, plus, slash). -/
theorem pixel_row_spec (img : Img) (y : Nat) (hy : y < img.h) :
    (pixelRowBody (colorsOf img) (cppOf img) img y).length = img.w * cppOf img ∧
    pixelRowStr (colorsOf img) (cppOf img) img y =
      ",\n\"".toList ++ ((List.range img.w).map (fun x =>
        col_encode_base64 (colorsOf img (pixColorRow (img.pix x y)) - 1)
          (cppOf img))).flatten ++ "\"".toList ∧
    (∀ x ∈ List.range img.w,
      1 ≤ colorsOf img (pixColorRow (img.pix x y)) ∧
      colorsOf img (pixColorRow (img.pix x y)) - 1 < 64 ^ cppOf img ∧
      ∀ j ∈ List.range (cppOf img),
        (col_encode_base64 (colorsOf img (pixColorRow (img.pix x y)) - 1)
            (cppOf img)).getD j 'A' =
          ctbl.getD (((colorsOf img (pixColorRow (img.pix x y)) - 1) >>>
            ((cppOf img - 1 - j) * 6)) &&& 0x3f) 'A') := by
  refine ⟨pixelRowBody_length _ _ _ _, rfl, ?_⟩
  intro x hx
  rw [List.mem_range] at hx
  have hmem : pixColorRow (img.pix x y) ∈ seenColors (imgPixels img) := by
    rw [pixColorRow_eq_palette, mem_seenColors]
    exact List.mem_map.2 ⟨img.pix x y, pix_mem_imgPixels img hx hy, rfl⟩
  have hcol : colorsOf img (pixColorRow (img.pix x y)) =
      idxOf (pixColorRow (img.pix x y)) (seenColors (imgPixels img)) + 1 := by
    unfold colorsOf
    rw [buildPalette_colors, if_pos hmem]
  have hlt : idxOf (pixColorRow (img.pix x y)) (seenColors (imgPixels img)) <
      (seenColors (imgPixels img)).length := idxOf_lt_length hmem
  have hnk : ncolsOf img = (seenColors (imgPixels img)).length := by
    unfold ncolsOf
    exact buildPalette_ncols _
  have hpow : ncolsOf img < 64 ^ cppOf img := lt_pow64_num_chars _
  refine ⟨by omega, by omega, ?_⟩
  intro j hj
  rw [List.mem_range] at hj
  unfold col_encode_base64
  rw [getD_map_range _ _ hj]

/-- Witness for `pixel_row_spec` on the first row of `img2`. -/
theorem pixel_row_spec_witness :
    0 < img2.h ∧
    (pixelRowBody (colorsOf img2) (cppOf img2) img2 0).length =
      img2.w * cppOf img2 := by
  exact ⟨by decide, (pixel_row_spec img2 0 (by decide)).1⟩

/-- Claim C5 is a code bug: at cairo's maximum surface dimensions
32767 x 32767 with 2^18 + 1 = 262145 distinct colors (symbol width 4,
well inside the palette invariant ncols ≤ min(W*H, 2^24 + 1)), the C
`int` computation of `ptbls` wraps: `((32767 * 4) + 4) * 32767 =
4294836224` becomes -131072, so `xpm_size` returns only 4587794 bytes
while the pixel table alone — by `pixelRows_flatten_length` exactly
`(W * cpp + 4) * H` bytes of the emitted document — is 4294836224
bytes.  The writer therefore runs far past the allocated buffer,
violating the claimed (and clearly intended) upper-bound property. -/
theorem xpm_size_overflow_bug :
    num_chars_per_pixel 262145 = 4 ∧
    xpm_size 32767 32767 262145 4 = 4587794 ∧
    ((32767 * 4 + 4) * 32767 : Int) = 4294836224 ∧
    xpm_size 32767 32767 262145 4 < 4294836224 := by
  have hub : bpcLoop 262145 ≤ 19 := (bpcLoop_le_iff 262145 19).2 (by norm_num)
  have hlb : ¬ bpcLoop 262145 ≤ 18 := fun hc => by
    have := (bpcLoop_le_iff 262145 18).1 hc
    norm_num at this
  refine ⟨?_, by decide, by decide, by decide⟩
  rw [num_chars_per_pixel_eq]
  omega

lemma seenColors_img2 : seenColors (imgPixels img2) = [0xff, 1] := by decide

lemma cppOf_img2 : cppOf img2 = 1 := by
  have h2 : ncolsOf img2 = 2 := by decide
  unfold cppOf
  rw [h2]
  exact num_chars_per_pixel_small (by norm_num) (by norm_num)

lemma colorKeys_img2 : colorKeys (colorsOf img2) = [1, 0xff] := by
  apply colorKeys_of_support (by decide) (by decide)
  · intro i
    unfold colorsOf
    rw [colors_ne_zero_iff, seenColors_img2]
    simp only [List.mem_cons, List.not_mem_nil, or_false]
    tauto
  · intro i hi
    rcases List.mem_cons.1 hi with h | h
    · rw [h]; decide
    · rcases List.mem_cons.1 h with h' | h'
      · rw [h']; decide
      · cases h'

/-- Counterexample to claim C6: on `img2` the first emitted color-table
line is the one whose symbol "B" encodes 0-based palette index 1, and the
second line's symbol "A" encodes index 0 — reading off the palette
indices of the emitted keys gives [2, 1], which is not ascending, so the
line encoding index k does not in general precede the one encoding
k + 1. -/
theorem color_table_index_order_counterexample :
    colorLines img2 = [",\n\"B c #000001\"".toList, ",\n\"A c #0000ff\"".toList] ∧
    (colorKeys (colorsOf img2)).map (colorsOf img2) = [2, 1] ∧
    ¬ List.Pairwise (· ≤ ·) ((colorKeys (colorsOf img2)).map (colorsOf img2)) := by
  refine ⟨?_, ?_, ?_⟩
  · unfold colorLines
    rw [colorKeys_img2, cppOf_img2]
    decide
  · rw [colorKeys_img2]
    decide
  · rw [colorKeys_img2]
    decide

/-- Amended claim C6: the color-table loop scans the color keys in
increasing order, so the lines appear in ascending order of their 24-bit
color value (the transparent sentinel carrying the greatest key), not in
ascending palette-index order; every emitted key holds a palette entry. -/
theorem color_table_color_value_order (img : Img) :
    List.Pairwise (· < ·) (colorKeys (colorsOf img)) ∧
    colorLines img = (colorKeys (colorsOf img)).map
      (colorLineStr (colorsOf img) (cppOf img)) ∧
    (∀ i ∈ colorKeys (colorsOf img), colorsOf img i ≠ 0) := by
  refine ⟨colorKeys_sorted _, rfl, ?_⟩
  intro i hi
  have := (List.mem_filter.1 hi).2
  simpa using this

/-- Witness for `color_table_color_value_order` at `img2` and key 1. -/
theorem color_table_color_value_order_witness :
    1 ∈ colorKeys (colorsOf img2) ∧ colorsOf img2 1 ≠ 0 := by
  have h1 : 1 ∈ colorKeys (colorsOf img2) := by
    rw [colorKeys_img2]
    decide
  exact ⟨h1, (color_table_color_value_order img2).2.2 1 h1⟩

/-- Counterexample to claim C7: a 64-entry palette is encoded with symbol
width 2, not 1 — the code derives the width from the bit-length of the
palette size itself (64 needs 7 bits), not of the largest 0-based index. -/
theorem symbol_width_64_counterexample :
    num_chars_per_pixel 64 = 2 ∧ num_chars_per_pixel 64 ≠ 1 := by
  have h := @num_chars_per_pixel_two 64 le_rfl (by norm_num)
  omega

/-- Amended claim C7: an image with exactly 65 distinct opaque colors is
encoded with symbolWidth 2 and every pixel-row symbol string has length
2W; however 64 distinct palette entries are also encoded with symbolWidth
2 — only palettes of 1 to 63 entries get symbolWidth 1. -/
theorem symbol_width_65_spec (img : Img) (hn : ncolsOf img = 65) :
    cppOf img = 2 ∧
    (∀ y ∈ List.range img.h,
      (pixelRowBody (colorsOf img) (cppOf img) img y).length = 2 * img.w) ∧
    num_chars_per_pixel 64 = 2 ∧
    (∀ n : Nat, 1 ≤ n → n ≤ 63 → num_chars_per_pixel n = 1) := by
  have hcpp : cppOf img = 2 := by
    unfold cppOf
    rw [hn]
    exact @num_chars_per_pixel_two 65 (by norm_num) (by norm_num)
  refine ⟨hcpp, fun y _ => ?_, @num_chars_per_pixel_two 64 le_rfl (by norm_num),
    fun n h1 h2 => num_chars_per_pixel_small h1 h2⟩
  rw [pixelRowBody_length, hcpp, Nat.mul_comm]

set_option maxRecDepth 20000 in
/-- Witness for `symbol_width_65_spec` at `img65`. -/
theorem symbol_width_65_spec_witness :
    ncolsOf img65 = 65 ∧ cppOf img65 = 2 := by
  have h : ncolsOf img65 = 65 := by decide
  exact ⟨h, (symbol_width_65_spec img65 h).1⟩

/-- Claim C10: the emitted color-table lines appear in ascending order of
their 24-bit color value, and when the palette contains the transparent
entry (key `MAX_COL`, the greatest possible key) its "c None" line is the
last color-table line. -/
theorem color_table_transparent_last (img : Img) :
    List.Pairwise (· < ·) (colorKeys (colorsOf img)) ∧
    (colorsOf img MAX_COL ≠ 0 →
      (colorKeys (colorsOf img)).getLast? = some MAX_COL ∧
      (colorLines img).getLast? = some (",\n\"".toList ++
        col_encode_base64 (colorsOf img MAX_COL - 1) (cppOf img) ++
        " c None\"".toList)) := by
  refine ⟨colorKeys_sorted _, fun hne => ?_⟩
  have hm : MAX_COL ∈ colorKeys (colorsOf img) := by
    unfold colorKeys
    rw [List.mem_filter, List.mem_range]
    exact ⟨by omega, by simpa using hne⟩
  have hlast : (colorKeys (colorsOf img)).getLast? = some MAX_COL :=
    sorted_getLast_eq (colorKeys_sorted _) hm (colorKeys_le _)
  refine ⟨hlast, ?_⟩
  unfold colorLines
  rw [List.getLast?_map, hlast]
  unfold colorLineStr
  simp [lt_irrefl]

/-- Witness for `color_table_transparent_last` at the fully transparent
image `imgT`. -/
theorem color_table_transparent_last_witness :
    colorsOf imgT MAX_COL ≠ 0 ∧
      (colorKeys (colorsOf imgT)).getLast? = some MAX_COL := by
  exact ⟨by decide, ((color_table_transparent_last imgT).2 (by decide)).1⟩

/-- Claim C9: on any failure no partial output is observable by the
caller — when the to-memory variant returns an error the caller's data
pointer is NULL and the length is 0; the to-stream variant invokes the
write callback at most once and only with the complete successfully
encoded buffer, and when encoding fails it returns the encoding error
without invoking the callback. -/
theorem no_partial_output (env : MemEnv) (img : Img)
    (wf : List Char → Nat → CairoStatus) :
    ((write_to_xpm_mem env img).status ≠ CairoStatus.success →
      (write_to_xpm_mem env img).data = none ∧
      (write_to_xpm_mem env img).len = 0) ∧
    (write_to_xpm_stream env img wf).2.length ≤ 1 ∧
    (∀ c ∈ (write_to_xpm_stream env img wf).2,
      c = (xpmDoc img, (xpmDoc img).length)) ∧
    ((write_to_xpm_mem env img).status ≠ CairoStatus.success →
      write_to_xpm_stream env img wf =
        ((write_to_xpm_mem env img).status, [])) := by
  unfold write_to_xpm_stream write_to_xpm_mem
  by_cases h1 : env.fmtOk <;> by_cases h2 : env.callocOk <;>
    by_cases h3 : env.mallocOk <;> simp [h1, h2, h3]

/-- Witness for `no_partial_output`: a failed `calloc` yields a NO_MEMORY
status with NULL data and zero length, and the stream variant performs no
callback invocation. -/
theorem no_partial_output_witness :
    (write_to_xpm_mem ⟨true, false, true⟩ img01).status ≠ CairoStatus.success ∧
    (write_to_xpm_mem ⟨true, false, true⟩ img01).data = none ∧
    (write_to_xpm_mem ⟨true, false, true⟩ img01).len = 0 ∧
    write_to_xpm_stream ⟨true, false, true⟩ img01 (fun _ _ => CairoStatus.success) =
      ((write_to_xpm_mem ⟨true, false, true⟩ img01).status, []) := by
  have h := no_partial_output ⟨true, false, true⟩ img01 (fun _ _ => CairoStatus.success)
  have hs : (write_to_xpm_mem ⟨true, false, true⟩ img01).status ≠
      CairoStatus.success := by decide
  exact ⟨hs, (h.1 hs).1, (h.1 hs).2, h.2.2.2 hs⟩

lemma num_chars_per_pixel_zero : num_chars_per_pixel 0 = 0 := by
  rw [num_chars_per_pixel_eq, bpcLoop_eq]
  norm_num

/-- Counterexample to claim C8: the zero-area image `img01` (W = 0,
H = 1) still receives one pixel-row line — the empty quoted string — so
the encoder does not emit zero pixel-row lines for every zero-area
image. -/
theorem zero_area_counterexample :
    (img01.w = 0 ∨ img01.h = 0) ∧ pixelRows img01 ≠ [] ∧
    pixelRows img01 = [",\n\"\"".toList] := by
  refine ⟨Or.inl rfl, by decide, by decide⟩

/-- Amended claim C8: on every zero-area image the encoder succeeds
without error, the header reports palette size 0 and symbol width 0, and
there are no color-table lines; there are exactly H pixel-row lines, each
the empty quoted string (W * symbolWidth = 0 symbols), so only the H = 0
case has no pixel-row lines. -/
theorem zero_area_spec (img : Img) (hz : img.w = 0 ∨ img.h = 0) :
    (write_to_xpm_mem envAllOk img).status = CairoStatus.success ∧
    ncolsOf img = 0 ∧ cppOf img = 0 ∧
    colorLines img = [] ∧
    (pixelRows img).length = img.h ∧
    (∀ r ∈ pixelRows img, r = ",\n\"\"".toList) ∧
    xpmDoc img = headerStr img.w img.h 0 0 ++ (pixelRows img).flatten ++
      "\n\x7d;\n".toList := by
  have hpix : imgPixels img = [] := by
    rw [← List.length_eq_zero, imgPixels_length]
    rcases hz with h | h <;> rw [h] <;> omega
  have hnc : ncolsOf img = 0 := by
    unfold ncolsOf
    rw [hpix]
    rfl
  have hcpp : cppOf img = 0 := by
    unfold cppOf
    rw [hnc, num_chars_per_pixel_zero]
  have hcz : ∀ i, colorsOf img i = 0 := by
    intro i
    unfold colorsOf
    rw [hpix]
    rfl
  have hkeys : colorKeys (colorsOf img) = [] := by
    unfold colorKeys
    rw [List.filter_eq_nil_iff]
    intro i _
    simp [hcz i]
  have hcl : colorLines img = [] := by
    unfold colorLines
    rw [hkeys]
    rfl
  refine ⟨rfl, hnc, hcpp, hcl, by simp [pixelRows], ?_, ?_⟩
  · intro r hr
    unfold pixelRows at hr
    obtain ⟨y, hy, hry⟩ := List.mem_map.1 hr
    rcases hz with hw | hh
    · rw [← hry]
      unfold pixelRowStr pixelRowBody
      rw [hw]
      simp only [List.range_zero, List.map_nil, List.flatten_nil, List.append_nil]
      decide
    · rw [List.mem_range, hh] at hy
      omega
  · unfold xpmDoc
    rw [hnc, hcpp, hcl]
    simp

/-- Witness for `zero_area_spec` at `img01`. -/
theorem zero_area_spec_witness :
    (img01.w = 0 ∨ img01.h = 0) ∧ ncolsOf img01 = 0 ∧ cppOf img01 = 0 ∧
      (pixelRows img01).length = img01.h := by
  have h := zero_area_spec img01 (Or.inl rfl)
  exact ⟨Or.inl rfl, h.2.1, h.2.2.1, h.2.2.2.2.1⟩
